import Mathlib

/-!
Verification of the WeChat article-enrichment pipeline.

A shallow embedding, over `List Char`, of the content-enrichment core of the
repository: the TTS text chunker (`splitTextForTTS`), the narration pipeline
(`generateSpeech` with `pcmToWav`), the illustration planner and its snippet
anchoring ladder (`addIllustrationsToArticle`), and the WeChat HTML formatter
(`formatHtmlForWeChat`).  Strings are modelled as `List Char` (JavaScript
`.length` counts UTF-16 units; every character occurring in this development
lies in the Basic Multilingual Plane, where the two coincide).
-/

namespace Weixin

/-- JavaScript truthiness of `s.trim()`: a string is blank when every
character is whitespace (so `trim` yields the empty string). -/
def isBlank (s : List Char) : Bool := s.all Char.isWhitespace

/-- JavaScript `String.prototype.trim`: drop whitespace from both ends. -/
def trimChars (s : List Char) : List Char :=
  ((s.dropWhile Char.isWhitespace).reverse.dropWhile Char.isWhitespace).reverse

/-- `leadsWith pat s` holds when `pat` is an initial segment of `s`
(character-exact, as in JavaScript `String.prototype.startsWith`). -/
def leadsWith : List Char → List Char → Bool
  | [], _ => true
  | _ :: _, [] => false
  | a :: as, b :: bs => a == b && leadsWith as bs

/-- JavaScript `String.prototype.includes`: the pattern occurs somewhere in
the string (the empty pattern always occurs). -/
def occursIn : List Char → List Char → Bool
  | doc, pat =>
    leadsWith pat doc ||
      match doc with
      | [] => false
      | _ :: rest => occursIn rest pat

/-- JavaScript `String.prototype.replace` with a plain-string pattern:
replace the first (leftmost) occurrence of `pat` by `rep`; if `pat` does not
occur the string is returned unchanged. -/
def replaceFirst (doc pat rep : List Char) : List Char :=
  if leadsWith pat doc then rep ++ doc.drop pat.length
  else
    match doc with
    | [] => []
    | c :: rest => c :: replaceFirst rest pat rep

/-! ## TextChunker: `splitTextForTTS` (src/unnamed/part_000, lines 420-453) -/

/-- The sentence-terminator class of the splitting regex
`/([。！？；.?!;\n]+)/` in `splitTextForTTS`. -/
def isTerm (c : Char) : Bool :=
  c == '。' || c == '！' || c == '？' || c == '；' ||
  c == '.' || c == '?' || c == '!' || c == ';' || c == '\n'

/-- Sentence assembly of `splitTextForTTS`: the input is split on maximal
terminator runs (the capturing split), and each part is appended to a running
buffer which is flushed right after every terminator run.  Equivalently, the
text is scanned character by character and the buffer is flushed at each
transition from a terminator run to a non-terminator character; the final
buffer is kept when it ends inside a terminator run (the JS loop pushed it
when it consumed the separator part) or when it is non-blank. -/
def sentencesAux (buf : List Char) (inTerm : Bool) : List Char → List (List Char)
  | [] => if inTerm then [buf] else if isBlank buf then [] else [buf]
  | c :: rest =>
    if isTerm c then sentencesAux (buf ++ [c]) true rest
    else if inTerm then buf :: sentencesAux [c] false rest
    else sentencesAux (buf ++ [c]) false rest

/-- The sentence list produced by the first half of `splitTextForTTS`. -/
def sentencesOf (text : List Char) : List (List Char) := sentencesAux [] false text

/-- Greedy accumulation of sentences into bounded segments, mirroring the
second loop of `splitTextForTTS`: when appending the next sentence would
exceed `limit`, the current buffer is flushed (only if non-blank) and the
sentence starts a fresh buffer; the final buffer is flushed if non-blank. -/
def segmentsAux (limit : Nat) (cur : List Char) : List (List Char) → List (List Char)
  | [] => if isBlank cur then [] else [cur]
  | s :: rest =>
    if limit < cur.length + s.length then
      if isBlank cur then segmentsAux limit s rest
      else cur :: segmentsAux limit s rest
    else segmentsAux limit (cur ++ s) rest

/-- `splitTextForTTS` from src/unnamed/part_000: split text into
sentence-respecting segments of at most `limit` characters (a single
oversized sentence is kept whole). -/
def splitTextForTTS (text : List Char) (limit : Nat) : List (List Char) :=
  segmentsAux limit [] (sentencesOf text)

/-- Alternating glue: `glue [w0, w1, ..., wn] [c0, ..., c(n-1)]`
is `w0 ++ c0 ++ w1 ++ c1 ++ ... ++ c(n-1) ++ wn`. -/
def glue : List (List Char) → List (List Char) → List Char
  | [], _ => []
  | w :: _, [] => w
  | w :: ws, c :: cs => w ++ c ++ glue ws cs

/-- Extend the last element of a non-empty list of strings by `t`. -/
def extendLast (t : List Char) : List (List Char) → List (List Char)
  | [] => [t]
  | [w] => [w ++ t]
  | w :: ws => w :: extendLast t ws

theorem isBlank_append {a b : List Char} (ha : isBlank a = true) (hb : isBlank b = true) :
    isBlank (a ++ b) = true := by
  simp only [isBlank, List.all_append, Bool.and_eq_true] at *
  exact ⟨ha, hb⟩

theorem glue_cons_append (a w : List Char) (ws : List (List Char)) (cs : List (List Char)) :
    glue ((a ++ w) :: ws) cs = a ++ glue (w :: ws) cs := by
  cases cs with
  | nil => simp [glue]
  | cons c cs' => simp [glue]

theorem glue_extendLast (cs : List (List Char)) :
    ∀ (ws : List (List Char)) (t : List Char), ws.length = cs.length + 1 →
      glue (extendLast t ws) cs = glue ws cs ++ t := by
  induction cs with
  | nil =>
    intro ws t hlen
    match ws, hlen with
    | [w], _ => simp [glue, extendLast]
  | cons c cs' ih =>
    intro ws t hlen
    match ws, hlen with
    | w :: w' :: ws', hlen =>
      have h' : (w' :: ws').length = cs'.length + 1 := by
        simpa using hlen
      simp only [extendLast, glue, ih (w' :: ws') t h']
      simp

theorem extendLast_blank {t : List Char} (ht : isBlank t = true) :
    ∀ {ws : List (List Char)}, (∀ w ∈ ws, isBlank w = true) →
      ∀ w ∈ extendLast t ws, isBlank w = true := by
  intro ws
  induction ws with
  | nil => intro _ w hw; simp [extendLast] at hw; simpa [hw]
  | cons a ws' ih =>
    intro hall w hw
    cases ws' with
    | nil =>
      simp [extendLast] at hw
      subst hw
      exact isBlank_append (hall a (by simp)) ht
    | cons b ws'' =>
      simp only [extendLast] at hw
      rcases List.mem_cons.mp hw with h | h
      · subst h; exact hall w (by simp)
      · exact ih (fun x hx => hall x (List.mem_cons_of_mem _ hx)) w h

/-- The sentence-assembly stage loses at most one blank trailing buffer:
the concatenation of the sentences, followed by that blank remainder,
reconstructs the input. -/
theorem sentencesAux_join (cs : List Char) : ∀ (buf : List Char) (b : Bool),
    ∃ w, isBlank w = true ∧ (sentencesAux buf b cs).flatten ++ w = buf ++ cs := by
  induction cs with
  | nil =>
    intro buf b
    cases b with
    | true => exact ⟨[], rfl, by simp [sentencesAux]⟩
    | false =>
      by_cases hb : isBlank buf = true
      · exact ⟨buf, hb, by simp [sentencesAux, hb]⟩
      · exact ⟨[], rfl, by simp [sentencesAux, hb]⟩
  | cons c rest ih =>
    intro buf b
    by_cases hc : isTerm c = true
    · obtain ⟨w, hw, hjoin⟩ := ih (buf ++ [c]) true
      exact ⟨w, hw, by simpa [sentencesAux, hc] using hjoin⟩
    · cases b with
      | true =>
        obtain ⟨w, hw, hjoin⟩ := ih [c] false
        refine ⟨w, hw, ?_⟩
        simp only [sentencesAux, hc, Bool.false_eq_true, if_false, if_true, List.flatten,
          List.append_assoc]
        simpa using hjoin
      | false =>
        obtain ⟨w, hw, hjoin⟩ := ih (buf ++ [c]) false
        exact ⟨w, hw, by simpa [sentencesAux, hc] using hjoin⟩

/-- The segment-assembly stage reconstructs the concatenated sentences up to
blank buffers dropped between, before or after the emitted segments. -/
theorem segmentsAux_glue (sents : List (List Char)) : ∀ (limit : Nat) (cur : List Char),
    ∃ ws : List (List Char),
      ws.length = (segmentsAux limit cur sents).length + 1 ∧
      (∀ w ∈ ws, isBlank w = true) ∧
      glue ws (segmentsAux limit cur sents) = cur ++ sents.flatten := by
  induction sents with
  | nil =>
    intro limit cur
    by_cases hb : isBlank cur = true
    · exact ⟨[cur], by simp [segmentsAux, hb], by simp [hb], by simp [glue, segmentsAux, hb]⟩
    · exact ⟨[[], []], by simp [segmentsAux, hb], by simp [isBlank], by
        simp [glue, segmentsAux, hb]⟩
  | cons s rest ih =>
    intro limit cur
    by_cases hov : limit < cur.length + s.length
    · by_cases hb : isBlank cur = true
      · obtain ⟨ws, hlen, hblank, hglue⟩ := ih limit s
        match ws, hlen with
        | w0 :: ws', hlen =>
          refine ⟨(cur ++ w0) :: ws', by simpa [segmentsAux, hov, hb] using hlen, ?_, ?_⟩
          · intro w hw
            rcases List.mem_cons.mp hw with h | h
            · subst h; exact isBlank_append hb (hblank w0 (by simp))
            · exact hblank w (List.mem_cons_of_mem _ h)
          · simp only [segmentsAux, hov, if_pos, hb, if_true, glue_cons_append]
            simp only [hglue, List.flatten, List.append_assoc]
      · obtain ⟨ws, hlen, hblank, hglue⟩ := ih limit s
        refine ⟨[] :: ws, ?_, ?_, ?_⟩
        · simp [segmentsAux, hov, hb, hlen]
        · intro w hw
          rcases List.mem_cons.mp hw with h | h
          · subst h; rfl
          · exact hblank w h
        · simp only [segmentsAux, hov, if_pos, hb, Bool.false_eq_true, if_false, glue]
          simp [hglue]
    · obtain ⟨ws, hlen, hblank, hglue⟩ := ih limit (cur ++ s)
      refine ⟨ws, ?_, hblank, ?_⟩
      · simpa [segmentsAux, hov] using hlen
      · simp only [segmentsAux, hov, if_neg, if_false]
        simp only [hglue, List.flatten, List.append_assoc]

/-- Every emitted segment is non-blank. -/
theorem segmentsAux_nonblank (sents : List (List Char)) : ∀ (limit : Nat) (cur : List Char),
    ∀ chunk ∈ segmentsAux limit cur sents, isBlank chunk = false := by
  induction sents with
  | nil =>
    intro limit cur chunk hc
    by_cases hb : isBlank cur = true
    · simp [segmentsAux, hb] at hc
    · simp [segmentsAux, hb] at hc
      simpa [hc] using hb
  | cons s rest ih =>
    intro limit cur chunk hc
    by_cases hov : limit < cur.length + s.length
    · by_cases hb : isBlank cur = true
      · exact ih limit s chunk (by simpa [segmentsAux, hov, hb] using hc)
      · simp only [segmentsAux, hov, if_pos, hb, Bool.false_eq_true, if_false] at hc
        rcases List.mem_cons.mp hc with h | h
        · subst h; simpa using hb
        · exact ih limit s chunk h
    · exact ih limit (cur ++ s) chunk (by simpa [segmentsAux, hov] using hc)

/-- Any chunk is either within the length limit or is a single (whole)
sentence of the input. -/
theorem segmentsAux_bound (sents : List (List Char)) :
    ∀ (limit : Nat) (cur : List Char) (all : List (List Char)),
      (∀ s ∈ sents, s ∈ all) → (cur.length ≤ limit ∨ cur ∈ all) →
      ∀ chunk ∈ segmentsAux limit cur sents, chunk.length ≤ limit ∨ chunk ∈ all := by
  induction sents with
  | nil =>
    intro limit cur all _ hcur chunk hc
    by_cases hb : isBlank cur = true
    · simp [segmentsAux, hb] at hc
    · simp [segmentsAux, hb] at hc
      subst hc; exact hcur
  | cons s rest ih =>
    intro limit cur all hall hcur chunk hc
    have hall' : ∀ x ∈ rest, x ∈ all := fun x hx => hall x (List.mem_cons_of_mem _ hx)
    have hs : s ∈ all := hall s (by simp)
    by_cases hov : limit < cur.length + s.length
    · by_cases hb : isBlank cur = true
      · exact ih limit s all hall' (Or.inr hs) chunk (by simpa [segmentsAux, hov, hb] using hc)
      · simp only [segmentsAux, hov, if_pos, hb, Bool.false_eq_true, if_false] at hc
        rcases List.mem_cons.mp hc with h | h
        · subst h; exact hcur
        · exact ih limit s all hall' (Or.inr hs) chunk h
    · have hlen : (cur ++ s).length ≤ limit := by
        simp only [List.length_append]
        omega
      exact ih limit (cur ++ s) all hall' (Or.inl hlen) chunk
        (by simpa [segmentsAux, hov] using hc)

theorem extendLast_length (t : List Char) :
    ∀ ws : List (List Char), ws ≠ [] → (extendLast t ws).length = ws.length := by
  intro ws
  induction ws with
  | nil => intro h; exact absurd rfl h
  | cons a ws' ih =>
    intro _
    cases ws' with
    | nil => rfl
    | cons b ws'' =>
      have := ih (by simp)
      simp only [extendLast, List.length_cons] at this ⊢
      omega

/-- C3: for every input text and limit, the chunks returned by
`splitTextForTTS` are all non-blank, and the original text is recovered by
interleaving the chunks, in order, with dropped spans that are pure
whitespace. -/
theorem splitTextForTTS_reconstruction (text : List Char) (limit : Nat) :
    (∀ chunk ∈ splitTextForTTS text limit, isBlank chunk = false) ∧
    ∃ ws : List (List Char),
      ws.length = (splitTextForTTS text limit).length + 1 ∧
      (∀ w ∈ ws, isBlank w = true) ∧
      glue ws (splitTextForTTS text limit) = text := by
  constructor
  · exact segmentsAux_nonblank _ limit []
  · obtain ⟨wtail, hwb, hsent⟩ := sentencesAux_join text [] false
    obtain ⟨ws, hlen, hblank, hglue⟩ := segmentsAux_glue (sentencesOf text) limit []
    have hne : ws ≠ [] := by
      intro h
      rw [h] at hlen
      simp at hlen
    refine ⟨extendLast wtail ws, ?_, ?_, ?_⟩
    · rw [extendLast_length wtail ws hne]
      exact hlen
    · exact extendLast_blank hwb hblank
    · show glue (extendLast wtail ws) (segmentsAux limit [] (sentencesOf text)) = text
      rw [glue_extendLast _ ws wtail hlen, hglue]
      simpa using hsent

/-- C4: with `limit = 300`, every chunk of `splitTextForTTS` either has
length at most 300 or is one whole sentence of the input (a single oversized
sentence is returned unsplit and may exceed the limit). -/
theorem splitTextForTTS_length_bound (text : List Char) :
    ∀ chunk ∈ splitTextForTTS text 300, chunk.length ≤ 300 ∨ chunk ∈ sentencesOf text := by
  intro chunk hc
  exact segmentsAux_bound (sentencesOf text) 300 [] (sentencesOf text) (fun s hs => hs)
    (Or.inl (by simp)) chunk hc

/-- Witness for C4 at a concrete input. -/
theorem splitTextForTTS_length_bound_witness :
    ("ab. cd".toList ∈ splitTextForTTS "ab. cd".toList 300) ∧
    ("ab. cd".toList.length ≤ 300 ∨ "ab. cd".toList ∈ sentencesOf "ab. cd".toList) :=
  ⟨by decide, splitTextForTTS_length_bound "ab. cd".toList "ab. cd".toList (by decide)⟩

/-! ## NarrationPipeline: `generateSpeech` and `pcmToWav`
(src/unnamed/part_000, lines 458-509 and 551-574) -/

/-- Little-endian byte decomposition of a 32-bit value (`DataView.setUint32`
with `littleEndian = true`). -/
def le32 (v : Nat) : List Nat :=
  [v % 256, v / 256 % 256, v / 65536 % 256, v / 16777216 % 256]

/-- Little-endian byte decomposition of a 16-bit value (`DataView.setUint16`
with `littleEndian = true`). -/
def le16 (v : Nat) : List Nat := [v % 256, v / 256 % 256]

/-- `writeString`: the code units of an ASCII tag, one byte each. -/
def asciiBytes (s : List Char) : List Nat := s.map Char.toNat

/-- `pcmToWav` from src/unnamed/part_000: wrap raw PCM bytes with the fixed
44-byte RIFF/WAVE header. -/
def pcmToWav (pcmData : List Nat) (sampleRate numChannels bitsPerSample : Nat) : List Nat :=
  let dataLength := pcmData.length
  let fileSize := 44 + dataLength
  asciiBytes "RIFF".toList ++ le32 (fileSize - 8) ++ asciiBytes "WAVE".toList ++
    asciiBytes "fmt ".toList ++ le32 16 ++ le16 1 ++ le16 numChannels ++ le32 sampleRate ++
    le32 (sampleRate * numChannels * (bitsPerSample / 8)) ++
    le16 (numChannels * (bitsPerSample / 8)) ++ le16 bitsPerSample ++
    asciiBytes "data".toList ++ le32 dataLength ++ pcmData

/-- One narration task of `generateSpeech`: the per-chunk failure boundary.
The external TTS call (including its base64 payload extraction and decoding)
is modelled by the oracle `tts`, whose `none` covers both a thrown error and
a missing audio payload; a blank chunk is skipped up front; a successful
payload is wrapped by `pcmToWav` at 24000 Hz, mono, 16-bit. -/
def chunkResult (tts : List Char → Option (List Nat)) (seg : List Char) : Option (List Nat) :=
  if isBlank seg then none
  else
    match tts seg with
    | none => none
    | some pcm => some (pcmToWav pcm 24000 1 16)

/-- `generateSpeech` from src/unnamed/part_000: chunk the text at limit 300,
run every chunk's task (`Promise.all` keeps the results in original chunk
order), then keep the non-null results in that order. -/
def generateSpeech (tts : List Char → Option (List Nat)) (text : List Char) : List (List Nat) :=
  (((splitTextForTTS text 300).map (chunkResult tts)).filterMap id)

theorem filterMap_id_indices {α : Type} (l : List (Option α)) :
    ∃ idxs : List Nat, idxs.Pairwise (· < ·) ∧
      idxs.map (fun i => l.getD i none) = (l.filterMap id).map some ∧
      ∀ i, i < l.length → l.getD i none ≠ none → i ∈ idxs := by
  induction l with
  | nil => exact ⟨[], by simp, by simp, by simp⟩
  | cons a rest ih =>
    obtain ⟨idxs, hpw, hmap, hcompl⟩ := ih
    cases a with
    | some x =>
      refine ⟨0 :: idxs.map (· + 1), ?_, ?_, ?_⟩
      · refine List.Pairwise.cons ?_ (List.pairwise_map.mpr (hpw.imp (by omega)))
        intro j hj
        rcases List.mem_map.mp hj with ⟨i, _, rfl⟩
        omega
      · simp only [List.map_cons, List.map_map, List.filterMap_cons]
        rw [List.getD_cons_zero]
        congr 1
      · intro i hi hne
        cases i with
        | zero => simp
        | succ j =>
          have hj : j < rest.length := by simpa using hi
          have : j ∈ idxs := hcompl j hj (by simpa [List.getD_cons_succ] using hne)
          exact List.mem_cons_of_mem _ (List.mem_map.mpr ⟨j, this, rfl⟩)
    | none =>
      refine ⟨idxs.map (· + 1), List.pairwise_map.mpr (hpw.imp (by omega)), ?_, ?_⟩
      · simp only [List.map_map, List.filterMap_cons]
        exact hmap
      · intro i hi hne
        cases i with
        | zero => simp [List.getD_cons_zero] at hne
        | succ j =>
          have hj : j < rest.length := by simpa using hi
          have : j ∈ idxs := hcompl j hj (by simpa [List.getD_cons_succ] using hne)
          exact List.mem_map.mpr ⟨j, this, rfl⟩

/-- C5: `generateSpeech` degrades a total failure of the TTS collaborator to
the empty list, and in general its output is exactly the sequence of
successful chunk artifacts, ordered by the original chunk index: there is a
strictly increasing list of chunk indices, covering every successful chunk,
whose per-chunk results enumerate the returned artifacts in order. -/
theorem generateSpeech_ordered (tts : List Char → Option (List Nat)) (text : List Char) :
    ((∀ seg ∈ splitTextForTTS text 300, tts seg = none) → generateSpeech tts text = []) ∧
    ∃ idxs : List Nat, idxs.Pairwise (· < ·) ∧
      idxs.map (fun i => ((splitTextForTTS text 300).map (chunkResult tts)).getD i none) =
        (generateSpeech tts text).map some ∧
      ∀ i, i < (splitTextForTTS text 300).length →
        ((splitTextForTTS text 300).map (chunkResult tts)).getD i none ≠ none → i ∈ idxs := by
  constructor
  · intro hall
    apply List.filterMap_eq_nil_iff.mpr
    intro a ha
    rcases List.mem_map.mp ha with ⟨seg, hseg, rfl⟩
    simp only [id]
    unfold chunkResult
    rw [hall seg hseg]
    split <;> rfl
  · obtain ⟨idxs, hpw, hmap, hcompl⟩ :=
      filterMap_id_indices ((splitTextForTTS text 300).map (chunkResult tts))
    exact ⟨idxs, hpw, hmap, fun i hi => hcompl i (by simpa using hi)⟩

/-! ## IllustrationPlanner: `addIllustrationsToArticle`
(src/unnamed/part_000, lines 268-415)

The snippet-anchoring ladder of the plan loop.  Step 1 is the regex
`(escapedSnippet[^<]*</p>)` with the `i` flag: since every regex
metacharacter of the snippet is escaped, the pattern is the literal snippet,
followed by a run of non-`<` characters, followed by the literal `</p>`,
matched case-insensitively (modelled by comparing `Char.toLower`, which
agrees with JavaScript canonicalisation on every character appearing here).
Steps 2 and 3 are case-sensitive `includes`/`replace` on plain strings. -/

/-- Case-insensitive character comparison (the regex `i` flag). -/
def ciEq (a b : Char) : Bool := a.toLower == b.toLower

/-- Case-insensitive `leadsWith`. -/
def ciLeads : List Char → List Char → Bool
  | [], _ => true
  | _ :: _, [] => false
  | a :: as, b :: bs => ciEq a b && ciLeads as bs

/-- Pairwise case-insensitive equality of two strings of equal length. -/
def ciEqList : List Char → List Char → Bool
  | [], [] => true
  | _ :: _, [] => false
  | [], _ :: _ => false
  | a :: as, b :: bs => ciEq a b && ciEqList as bs

/-- The paragraph-closing literal of the step-1 regex. -/
def pClose : List Char := ['<', '/', 'p', '>']

/-- Matching of the tail `[^<]*</p>` of the step-1 regex against `s`: the
greedy run of non-`<` characters can only stop at the first `<`, where the
literal `</p>` must start (case-insensitively).  Returns the total number of
characters consumed. -/
def closeScan : List Char → Option Nat
  | [] => none
  | c :: rest =>
    if c = '<' then
      if ciLeads pClose (c :: rest) then some 4 else none
    else (closeScan rest).map (· + 1)

/-- Matching of the whole step-1 regex at the start of `s`: the snippet
(case-insensitively), then `[^<]*</p>`.  Returns the match length. -/
def pMatchAt (snippet s : List Char) : Option Nat :=
  if ciLeads snippet s then (closeScan (s.drop snippet.length)).map (· + snippet.length)
  else none

/-- Leftmost search of the step-1 regex over the document; returns the index
just after the end of the match (the insertion point after `</p>`). -/
def findPBoundAux (snippet : List Char) (pos : Nat) : List Char → Option Nat
  | [] =>
    match pMatchAt snippet [] with
    | some len => some (pos + len)
    | none => none
  | c :: rest =>
    match pMatchAt snippet (c :: rest) with
    | some len => some (pos + len)
    | none => findPBoundAux snippet (pos + 1) rest

/-- Insertion point of the paragraph-bounded exact match (ladder step 1). -/
def findPBound (snippet doc : List Char) : Option Nat := findPBoundAux snippet 0 doc

/-- The inline-insertion ladder of the plan loop (src/unnamed/part_000,
lines 382-400): (1) paragraph-bounded regex match, inserting after the
matched `</p>`; (2) bare first-occurrence replacement of the snippet by
snippet + fragment; (3) the same with the first 15 characters of the
snippet, provided that prefix is longer than 10 characters; otherwise the
document is returned unchanged. -/
def insertInline (doc snippet fragment : List Char) : List Char :=
  match findPBound snippet doc with
  | some idx => doc.take idx ++ fragment ++ doc.drop idx
  | none =>
    if occursIn doc snippet then replaceFirst doc snippet (snippet ++ fragment)
    else
      let short := snippet.take 15
      if 10 < short.length && occursIn doc short then
        replaceFirst doc short (short ++ fragment)
      else doc

/-- A placement plan from the analysis response.  The schema marks
`contextSnippet` optional; the empty list models both an absent and an empty
string, which the code treats identically (both are falsy). -/
structure Plan where
  isCover : Bool
  contextSnippet : List Char
  imagePrompt : List Char

/-- The fixed figure/caption fragment built around the generated base64
image payload, exactly as in the template literal of the code. -/
def figTagPre : List Char :=
  ("\n             <figure style=\"margin: 20px 0; text-align: center;\">\n               <img src=\"data:image/jpeg;base64,").toList

def figTagPost : List Char :=
  ("\" style=\"display: block; width: 100%; border-radius: 8px; box-shadow: 0 4px 6px rgba(0,0,0,0.1); margin: 0 auto;\" alt=\"AI插图\" />\n             </figure>\n           ").toList

def figTag (data : List Char) : List Char := figTagPre ++ data ++ figTagPost

/-- Processing of one plan inside the loop of `addIllustrationsToArticle`.
The image-generation call (with its payload extraction) is modelled by the
oracle `gen`; `none` covers a thrown error as well as a response without an
inline image payload — in both cases the document is left unchanged and the
loop continues (the per-plan `try`/`catch`).  A cover plan prepends the
fragment; a non-cover plan with a truthy `contextSnippet` runs the ladder on
the trimmed snippet. -/
def stepDoc (gen : Plan → Option (List Char)) (doc : List Char) (p : Plan) : List Char :=
  match gen p with
  | none => doc
  | some data =>
    if p.isCover then figTag data ++ doc
    else if p.contextSnippet.isEmpty then doc
    else insertInline doc (trimChars p.contextSnippet) (figTag data)

/-- The planner's failure taxonomy relevant here: the fatal case raised when
the analysis response holds no plans. -/
inductive IllustrationError where
  | analysisIncomplete
deriving DecidableEq

/-- `addIllustrationsToArticle` from src/unnamed/part_000 (lines 268-415):
the parsed analysis response (`none` models a null `JSON.parse` result) must
hold at least one plan, else the call throws; the plan loop then folds over
the plans in order, mutating the document.  `imageCount` (the requested
number of illustrations, default 1) only shapes the analysis prompt; the
code never compares it with the number of returned plans. -/
def addIllustrationsToArticle (analysis : Option (List Plan))
    (gen : Plan → Option (List Char)) (articleHtml : List Char) (imageCount : Nat) :
    Except IllustrationError (List Char) :=
  match analysis with
  | none => .error .analysisIncomplete
  | some plans =>
    if plans.isEmpty then .error .analysisIncomplete
    else .ok (plans.foldl (stepDoc gen) articleHtml)

/-- Whether the ladder finds an anchor (some insertion happens). -/
def anchorFound (doc snippet : List Char) : Bool :=
  (findPBound snippet doc).isSome || occursIn doc snippet ||
    (10 < (snippet.take 15).length && occursIn doc (snippet.take 15))

theorem closeScan_cons (c : Char) (rest : List Char) :
    closeScan (c :: rest) =
      if c = '<' then (if ciLeads pClose (c :: rest) then some 4 else none)
      else (closeScan rest).map (· + 1) := rfl

theorem leadsWith_iff (pat : List Char) :
    ∀ s : List Char, leadsWith pat s = true ↔ ∃ t, s = pat ++ t := by
  induction pat with
  | nil => intro s; simp [leadsWith]
  | cons a as ih =>
    intro s
    cases s with
    | nil =>
      simp only [leadsWith]
      constructor
      · intro h; exact absurd h (by simp)
      · rintro ⟨t, ht⟩; simp at ht
    | cons b bs =>
      simp only [leadsWith, Bool.and_eq_true, beq_iff_eq, ih bs]
      constructor
      · rintro ⟨rfl, t, rfl⟩; exact ⟨t, rfl⟩
      · rintro ⟨t, ht⟩
        injection ht with h1 h2
        exact ⟨h1.symm, t, h2⟩

theorem occursIn_false_cons {c : Char} {rest pat : List Char}
    (h : occursIn (c :: rest) pat = false) : occursIn rest pat = false := by
  unfold occursIn at h
  simp only [Bool.or_eq_false_iff] at h
  exact h.2

/-- `replaceFirst` on an occurring pattern splices the replacement in for
the leftmost occurrence and leaves everything else unchanged. -/
theorem replaceFirst_decomp (pat rep : List Char) :
    ∀ doc : List Char, occursIn doc pat = true →
      ∃ pre post, doc = pre ++ pat ++ post ∧
        replaceFirst doc pat rep = pre ++ rep ++ post ∧
        ∀ i, i < pre.length → leadsWith pat (doc.drop i) = false := by
  intro doc
  induction doc with
  | nil =>
    intro h
    unfold occursIn at h
    simp only [Bool.or_eq_true] at h
    rcases h with h | h
    · obtain ⟨t, ht⟩ := (leadsWith_iff pat []).mp h
      obtain ⟨hp, ht'⟩ := List.append_eq_nil.mp ht.symm
      subst hp; subst ht'
      exact ⟨[], [], by simp, by simp [replaceFirst, leadsWith], by simp⟩
    · simp at h
  | cons c rest ih =>
    intro h
    by_cases hl : leadsWith pat (c :: rest) = true
    · obtain ⟨t, ht⟩ := (leadsWith_iff pat (c :: rest)).mp hl
      refine ⟨[], t, by simpa using ht, ?_, by simp⟩
      rw [replaceFirst, if_pos hl, ht]
      simp [List.drop_left]
    · have hr : occursIn rest pat = true := by
        unfold occursIn at h
        simp only [Bool.or_eq_true] at h
        rcases h with h | h
        · exact absurd h hl
        · simpa using h
      obtain ⟨pre, post, hdoc, hrep, hleft⟩ := ih hr
      refine ⟨c :: pre, post, by simp [hdoc], ?_, ?_⟩
      · rw [replaceFirst, if_neg (by simpa using hl)]
        simp [hrep]
      · intro i hi
        cases i with
        | zero => simpa using hl
        | succ j =>
          have hj : j < pre.length := by simpa using hi
          simpa using hleft j hj

theorem ciEq_refl (c : Char) : ciEq c c = true := by simp [ciEq]

theorem ciEq_symm {a b : Char} (h : ciEq a b = true) : ciEq b a = true := by
  simp only [ciEq, beq_iff_eq] at *
  exact h.symm

theorem ciEqList_length : ∀ {a b : List Char}, ciEqList a b = true → a.length = b.length := by
  intro a
  induction a with
  | nil => intro b h; cases b with
    | nil => rfl
    | cons x xs => simp [ciEqList] at h
  | cons x xs ih =>
    intro b h
    cases b with
    | nil => simp [ciEqList] at h
    | cons y ys =>
      simp only [ciEqList, Bool.and_eq_true] at h
      simp [ih h.2]

theorem ciLeads_append_self (pat : List Char) :
    ∀ t : List Char, ciLeads pat (pat ++ t) = true := by
  induction pat with
  | nil => intro t; rfl
  | cons a as ih => intro t; simp [ciLeads, ciEq_refl, ih t]

theorem ciLeads_decomp (pat : List Char) :
    ∀ s : List Char, ciLeads pat s = true →
      ∃ s1 s2, s = s1 ++ s2 ∧ ciEqList s1 pat = true := by
  induction pat with
  | nil => intro s _; exact ⟨[], s, rfl, rfl⟩
  | cons a as ih =>
    intro s h
    cases s with
    | nil => simp [ciLeads] at h
    | cons b bs =>
      simp only [ciLeads, Bool.and_eq_true] at h
      obtain ⟨s1, s2, rfl, hci⟩ := ih bs h.2
      exact ⟨b :: s1, s2, rfl, by simp [ciEqList, ciEq_symm h.1, hci]⟩

theorem closeScan_shape (post : List Char) :
    ∀ mid : List Char, (∀ c ∈ mid, c ≠ '<') →
      closeScan (mid ++ pClose ++ post) = some (mid.length + 4) := by
  intro mid
  induction mid with
  | nil =>
    intro _
    have hci : ciLeads pClose (pClose ++ post) = true := ciLeads_append_self pClose post
    show closeScan ('<' :: ('/' :: 'p' :: '>' :: post)) = some (List.length [] + 4)
    rw [closeScan_cons, if_pos rfl, if_pos (by exact hci)]
    rfl
  | cons c mid' ih =>
    intro hall
    have hc : c ≠ '<' := hall c (by simp)
    have ih' := ih (fun x hx => hall x (List.mem_cons_of_mem _ hx))
    show closeScan (c :: (mid' ++ pClose ++ post)) = some ((c :: mid').length + 4)
    rw [closeScan_cons, if_neg hc, ih']
    simp only [List.length_cons]
    congr 1

theorem closeScan_some : ∀ (s : List Char) (m : Nat), closeScan s = some m →
    ∃ mid c4 post, s = mid ++ c4 ++ post ∧ (∀ c ∈ mid, c ≠ '<') ∧
      ciEqList c4 pClose = true ∧ m = mid.length + 4 := by
  intro s
  induction s with
  | nil => intro m h; simp [closeScan] at h
  | cons c rest ih =>
    intro m h
    by_cases hc : c = '<'
    · rw [closeScan_cons, if_pos hc] at h
      by_cases hci : ciLeads pClose (c :: rest) = true
      · rw [if_pos hci] at h
        obtain ⟨s1, s2, hs, hciq⟩ := ciLeads_decomp pClose (c :: rest) hci
        injection h with h4
        exact ⟨[], s1, s2, by simpa using hs, by simp, hciq, by
          simp only [List.length_nil]
          omega⟩
      · rw [if_neg hci] at h
        exact absurd h (by simp)
    · rw [closeScan_cons, if_neg hc] at h
      cases hm : closeScan rest with
      | none => rw [hm] at h; simp at h
      | some m' =>
        rw [hm] at h
        simp at h
        obtain ⟨mid, c4, post, hs, hmid, hciq, hm'⟩ := ih m' hm
        refine ⟨c :: mid, c4, post, by simp [hs], ?_, hciq, by simp; omega⟩
        intro x hx
        rcases List.mem_cons.mp hx with h | h
        · subst h; exact hc
        · exact hmid x h

theorem pMatchAt_shape (snippet mid post : List Char) (hmid : ∀ c ∈ mid, c ≠ '<') :
    pMatchAt snippet (snippet ++ (mid ++ pClose ++ post)) =
      some (mid.length + 4 + snippet.length) := by
  unfold pMatchAt
  rw [if_pos (ciLeads_append_self snippet _), List.drop_left,
    closeScan_shape post mid hmid]
  rfl

theorem pMatchAt_some (snippet : List Char) (s : List Char) (len : Nat)
    (h : pMatchAt snippet s = some len) :
    ∃ s1 mid c4 rest, s = s1 ++ mid ++ c4 ++ rest ∧ ciEqList s1 snippet = true ∧
      (∀ c ∈ mid, c ≠ '<') ∧ ciEqList c4 pClose = true ∧
      len = s1.length + mid.length + 4 := by
  unfold pMatchAt at h
  by_cases hci : ciLeads snippet s = true
  · rw [if_pos hci] at h
    obtain ⟨s1, s2, rfl, hciq⟩ := ciLeads_decomp snippet s hci
    have hlen1 : s1.length = snippet.length := ciEqList_length hciq
    rw [← hlen1, List.drop_left] at h
    cases hm : closeScan s2 with
    | none => rw [hm] at h; simp at h
    | some m =>
      rw [hm] at h
      simp at h
      obtain ⟨mid, c4, post, rfl, hmid, hc4, hm4⟩ := closeScan_some s2 m hm
      exact ⟨s1, mid, c4, post, by simp, hciq, hmid, hc4, by omega⟩
  · rw [if_neg hci] at h
    exact absurd h (by simp)

theorem findPBoundAux_some (snippet : List Char) :
    ∀ (s : List Char) (pos idx : Nat), findPBoundAux snippet pos s = some idx →
      ∃ k len, pMatchAt snippet (s.drop k) = some len ∧ idx = pos + k + len ∧
        ∀ j, j < k → pMatchAt snippet (s.drop j) = none := by
  intro s
  induction s with
  | nil =>
    intro pos idx h
    rw [findPBoundAux] at h
    cases hm : pMatchAt snippet [] with
    | none => rw [hm] at h; exact absurd h (by simp)
    | some len =>
      rw [hm] at h
      injection h with h
      exact ⟨0, len, by simpa using hm, by omega, by omega⟩
  | cons c rest ih =>
    intro pos idx h
    rw [findPBoundAux] at h
    cases hm : pMatchAt snippet (c :: rest) with
    | some len =>
      rw [hm] at h
      injection h with h
      exact ⟨0, len, by simpa using hm, by omega, by omega⟩
    | none =>
      rw [hm] at h
      obtain ⟨k, len, hmk, hidx, hleft⟩ := ih (pos + 1) idx h
      refine ⟨k + 1, len, by simpa using hmk, by omega, ?_⟩
      intro j hj
      cases j with
      | zero => simpa using hm
      | succ j' =>
        have : j' < k := by omega
        simpa using hleft j' this

theorem findPBoundAux_not_none (snippet : List Char) :
    ∀ (s : List Char) (pos k : Nat), pMatchAt snippet (s.drop k) ≠ none →
      findPBoundAux snippet pos s ≠ none := by
  intro s
  induction s with
  | nil =>
    intro pos k h
    rw [List.drop_nil] at h
    rw [findPBoundAux]
    cases hm : pMatchAt snippet [] with
    | none => exact absurd hm h
    | some len => simp
  | cons c rest ih =>
    intro pos k h
    rw [findPBoundAux]
    cases hm : pMatchAt snippet (c :: rest) with
    | some len => simp
    | none =>
      cases k with
      | zero => rw [List.drop_zero] at h; exact absurd hm h
      | succ k' =>
        simp only
        exact ih (pos + 1) k' (by simpa using h)

/-- C6: when ladder steps 1 and 2 both fail, the fallback retries with the
first 15 characters of the snippet: it inserts the fragment immediately
after the leftmost occurrence of that prefix provided the prefix is longer
than 10 characters and occurs in the document; a snippet of length at most
10 (so its usable prefix is too short) leaves the document unchanged, as
does a missing or too-short prefix. -/
theorem ladder_truncated_retry (doc snippet frag : List Char)
    (h1 : findPBound snippet doc = none) (h2 : occursIn doc snippet = false) :
    (10 < (snippet.take 15).length → occursIn doc (snippet.take 15) = true →
      ∃ pre post, doc = pre ++ snippet.take 15 ++ post ∧
        insertInline doc snippet frag = pre ++ snippet.take 15 ++ (frag ++ post) ∧
        ∀ i, i < pre.length → leadsWith (snippet.take 15) (doc.drop i) = false) ∧
    (snippet.length ≤ 10 → insertInline doc snippet frag = doc) ∧
    ((snippet.take 15).length ≤ 10 ∨ occursIn doc (snippet.take 15) = false →
      insertInline doc snippet frag = doc) := by
  have hunfold : insertInline doc snippet frag =
      (if occursIn doc snippet = true then replaceFirst doc snippet (snippet ++ frag)
       else
        if (decide (10 < (snippet.take 15).length) && occursIn doc (snippet.take 15)) = true
        then replaceFirst doc (snippet.take 15) (snippet.take 15 ++ frag)
        else doc) := by
    unfold insertInline
    rw [h1]
  rw [hunfold, if_neg (by simp [h2])]
  refine ⟨?_, ?_, ?_⟩
  · intro hlen hocc
    rw [if_pos (by
      simp only [hocc, Bool.and_true]
      exact decide_eq_true hlen)]
    obtain ⟨pre, post, hdoc, hrep, hleft⟩ :=
      replaceFirst_decomp (snippet.take 15) (snippet.take 15 ++ frag) doc hocc
    exact ⟨pre, post, hdoc, by simp [hrep], hleft⟩
  · intro hshort
    rw [if_neg]
    simp only [Bool.and_eq_true, decide_eq_true_eq, not_and]
    intro hgt
    have : (snippet.take 15).length ≤ snippet.length := by
      simp [List.length_take]
    omega
  · intro hfail
    rw [if_neg]
    simp only [Bool.and_eq_true, decide_eq_true_eq, not_and]
    intro hgt
    rcases hfail with h | h
    · omega
    · simp [h]

/-- Witness for C6: a 25-character snippet whose 15-character prefix occurs;
and, through the same theorem, a short snippet taken from a document where
neither it nor any paragraph match appears. -/
theorem ladder_truncated_retry_witness :
    (findPBound "abcdefghijklmnopqrstuvwxy".toList "only abcdefghijklmno is here".toList =
      none) ∧
    (occursIn "only abcdefghijklmno is here".toList "abcdefghijklmnopqrstuvwxy".toList =
      false) ∧
    (10 < ("abcdefghijklmnopqrstuvwxy".toList.take 15).length → occursIn "only abcdefghijklmno is here".toList ("abcdefghijklmnopqrstuvwxy".toList.take 15) = true →
      ∃ pre post, "only abcdefghijklmno is here".toList =
          pre ++ "abcdefghijklmnopqrstuvwxy".toList.take 15 ++ post ∧
        insertInline "only abcdefghijklmno is here".toList "abcdefghijklmnopqrstuvwxy".toList
            "[F]".toList =
          pre ++ "abcdefghijklmnopqrstuvwxy".toList.take 15 ++ ("[F]".toList ++ post) ∧
        ∀ i, i < pre.length →
          leadsWith ("abcdefghijklmnopqrstuvwxy".toList.take 15)
            ("only abcdefghijklmno is here".toList.drop i) = false) :=
  ⟨by decide, by decide,
    (ladder_truncated_retry "only abcdefghijklmno is here".toList
      "abcdefghijklmnopqrstuvwxy".toList "[F]".toList (by decide) (by decide)).1⟩

/-- C9: when step 2 (bare substring) or step 3 (truncated prefix) fires, the
fragment is inserted exactly once, immediately after the leftmost occurrence
of the snippet (respectively of its 15-character prefix); every later
occurrence is left untouched. -/
theorem ladder_first_occurrence (doc snippet frag : List Char)
    (h1 : findPBound snippet doc = none) :
    (occursIn doc snippet = true →
      ∃ pre post, doc = pre ++ snippet ++ post ∧
        insertInline doc snippet frag = pre ++ snippet ++ (frag ++ post) ∧
        ∀ i, i < pre.length → leadsWith snippet (doc.drop i) = false) ∧
    (occursIn doc snippet = false → 10 < (snippet.take 15).length →
      occursIn doc (snippet.take 15) = true →
      ∃ pre post, doc = pre ++ snippet.take 15 ++ post ∧
        insertInline doc snippet frag = pre ++ snippet.take 15 ++ (frag ++ post) ∧
        ∀ i, i < pre.length → leadsWith (snippet.take 15) (doc.drop i) = false) := by
  constructor
  · intro hocc
    have hunfold : insertInline doc snippet frag =
        replaceFirst doc snippet (snippet ++ frag) := by
      unfold insertInline
      rw [h1]
      exact if_pos (by simp [hocc])
    obtain ⟨pre, post, hdoc, hrep, hleft⟩ :=
      replaceFirst_decomp snippet (snippet ++ frag) doc hocc
    exact ⟨pre, post, hdoc, by simp [hunfold, hrep], hleft⟩
  · intro hnocc hlen hocc
    exact (ladder_truncated_retry doc snippet frag h1 hnocc).1 hlen hocc

/-- Witness for C9: a document holding two copies of the snippet; only the
first is extended by the fragment. -/
theorem ladder_first_occurrence_witness :
    (findPBound "Alpha".toList "x Alpha y Alpha z".toList = none) ∧
    (occursIn "x Alpha y Alpha z".toList "Alpha".toList = true →
      ∃ pre post, "x Alpha y Alpha z".toList = pre ++ "Alpha".toList ++ post ∧
        insertInline "x Alpha y Alpha z".toList "Alpha".toList "[F]".toList =
          pre ++ "Alpha".toList ++ ("[F]".toList ++ post) ∧
        ∀ i, i < pre.length →
          leadsWith "Alpha".toList ("x Alpha y Alpha z".toList.drop i) = false) :=
  ⟨by decide,
    (ladder_first_occurrence "x Alpha y Alpha z".toList "Alpha".toList "[F]".toList
      (by decide)).1⟩

/-- When the step-1 regex matches, the ladder splices the fragment exactly
at the insertion point after the matched (case-insensitive) `</p>`, at the
leftmost matching position, leaving the rest of the document unchanged. -/
theorem insertInline_pbound (doc snippet frag : List Char) (idx : Nat)
    (h : findPBound snippet doc = some idx) :
    ∃ pre s1 mid c4 post, doc = pre ++ (s1 ++ (mid ++ (c4 ++ post))) ∧
      ciEqList s1 snippet = true ∧ (∀ c ∈ mid, c ≠ '<') ∧ ciEqList c4 pClose = true ∧
      insertInline doc snippet frag = pre ++ (s1 ++ (mid ++ (c4 ++ (frag ++ post)))) := by
  obtain ⟨k, len, hmk, hidx, -⟩ := findPBoundAux_some snippet doc 0 idx h
  obtain ⟨s1, mid, c4, rest, hdk, hci1, hmid, hc4, hlen⟩ :=
    pMatchAt_some snippet (doc.drop k) len hmk
  have hc4len : c4.length = 4 := by simpa [pClose] using ciEqList_length hc4
  have hdoc : doc = doc.take k ++ (s1 ++ mid ++ c4 ++ rest) := by
    rw [← hdk]
    exact (List.take_append_drop k doc).symm
  have hk : k ≤ doc.length := by
    by_contra hgt
    push_neg at hgt
    have hnil : doc.drop k = [] := List.drop_eq_nil_of_le (le_of_lt hgt)
    rw [hnil] at hdk
    have := congrArg List.length hdk
    simp [hc4len] at this
    omega
  have hprelen : (doc.take k).length = k := by
    rw [List.length_take]
    omega
  have hidx2 : idx = (doc.take k).length + (s1 ++ mid ++ c4).length := by
    simp only [hprelen, List.length_append]
    omega
  have h1 : doc.take idx = doc.take k ++ (s1 ++ mid ++ c4) := by
    conv_lhs => rw [hdoc]
    rw [hidx2]
    rw [List.take_append]
    congr 1
    have : s1 ++ mid ++ c4 ++ rest = (s1 ++ mid ++ c4) ++ rest := by simp
    rw [this, List.take_left]
  have h2 : doc.drop idx = rest := by
    conv_lhs => rw [hdoc]
    rw [hidx2]
    rw [List.drop_append]
    have : s1 ++ mid ++ c4 ++ rest = (s1 ++ mid ++ c4) ++ rest := by simp
    rw [this, List.drop_left]
  refine ⟨doc.take k, s1, mid, c4, rest, by simpa [List.append_assoc] using hdoc,
    hci1, hmid, hc4, ?_⟩
  unfold insertInline
  rw [h]
  show doc.take idx ++ frag ++ doc.drop idx = _
  rw [h1, h2]
  simp

/-- C7: whenever the document contains the snippet inside a paragraph, with
no markup between the snippet and the paragraph-closing tag, ladder step 1
fires: the figure fragment is inserted immediately after a closing `</p>`
of a paragraph containing (a case-insensitive copy of) the snippet with no
markup in between — never in the middle of the paragraph's text. -/
theorem ladder_paragraph_bounded (doc snippet frag pre mid post : List Char)
    (hdoc : doc = pre ++ snippet ++ mid ++ pClose ++ post)
    (hmid : ∀ c ∈ mid, c ≠ '<') :
    ∃ pre2 s2 mid2 c4 post2,
      doc = pre2 ++ (s2 ++ (mid2 ++ (c4 ++ post2))) ∧ ciEqList s2 snippet = true ∧
      (∀ c ∈ mid2, c ≠ '<') ∧ ciEqList c4 pClose = true ∧
      insertInline doc snippet frag = pre2 ++ (s2 ++ (mid2 ++ (c4 ++ (frag ++ post2)))) := by
  have hne : findPBound snippet doc ≠ none := by
    apply findPBoundAux_not_none snippet doc 0 pre.length
    have hdk : doc.drop pre.length = snippet ++ (mid ++ pClose ++ post) := by
      rw [hdoc]
      have : pre ++ snippet ++ mid ++ pClose ++ post =
          pre ++ (snippet ++ (mid ++ pClose ++ post)) := by simp
      rw [this, List.drop_left]
    rw [hdk, pMatchAt_shape snippet mid post hmid]
    simp
  cases hfb : findPBound snippet doc with
  | none => exact absurd hfb hne
  | some idx => exact insertInline_pbound doc snippet frag idx hfb

/-- Witness for C7 at a concrete document and snippet. -/
theorem ladder_paragraph_bounded_witness :
    ("<p>Alpha beta gamma.</p><p>Delta.</p>".toList =
      "<p>".toList ++ "Alpha beta".toList ++ " gamma.".toList ++ pClose ++
        "<p>Delta.</p>".toList) ∧
    (∀ c ∈ " gamma.".toList, c ≠ '<') ∧
    ∃ pre2 s2 mid2 c4 post2,
      "<p>Alpha beta gamma.</p><p>Delta.</p>".toList =
        pre2 ++ (s2 ++ (mid2 ++ (c4 ++ post2))) ∧
      ciEqList s2 "Alpha beta".toList = true ∧
      (∀ c ∈ mid2, c ≠ '<') ∧ ciEqList c4 pClose = true ∧
      insertInline "<p>Alpha beta gamma.</p><p>Delta.</p>".toList "Alpha beta".toList
          "[F]".toList = pre2 ++ (s2 ++ (mid2 ++ (c4 ++ ("[F]".toList ++ post2)))) :=
  ⟨by decide, by decide,
    ladder_paragraph_bounded "<p>Alpha beta gamma.</p><p>Delta.</p>".toList
      "Alpha beta".toList "[F]".toList "<p>".toList " gamma.".toList
      "<p>Delta.</p>".toList (by decide) (by decide)⟩

/-! ## Claims about the plan loop as a whole (C1, C8) -/

theorem stepDoc_none {gen : Plan → Option (List Char)} {doc : List Char} {p : Plan}
    (h : gen p = none) : stepDoc gen doc p = doc := by
  unfold stepDoc
  rw [h]

theorem count_take_drop (doc : List Char) (idx : Nat) (c : Char) :
    (doc.take idx).count c + (doc.drop idx).count c = doc.count c := by
  conv_rhs => rw [← List.take_append_drop idx doc]
  rw [List.count_append]

/-- Character counting through the ladder: an insertion adds exactly the
fragment's characters, and happens exactly when `anchorFound` holds. -/
theorem count_insertInline (doc snippet frag : List Char) (c : Char) :
    (insertInline doc snippet frag).count c =
      doc.count c + (if anchorFound doc snippet then frag.count c else 0) := by
  unfold insertInline anchorFound
  cases hfb : findPBound snippet doc with
  | some idx =>
    simp only [Option.isSome_some, Bool.true_or, if_pos, List.count_append]
    have := count_take_drop doc idx c
    omega
  | none =>
    simp only [Option.isSome_none, Bool.false_or]
    by_cases h2 : occursIn doc snippet = true
    · rw [if_pos h2]
      obtain ⟨pre, post, hdoc, hrep, -⟩ :=
        replaceFirst_decomp snippet (snippet ++ frag) doc h2
      simp only [h2, Bool.true_or, if_true]
      rw [hrep, hdoc]
      simp only [List.count_append]
      omega
    · have h2' : occursIn doc snippet = false := by simpa using h2
      rw [if_neg (by simp [h2'])]
      by_cases h3 : (decide (10 < (snippet.take 15).length) &&
          occursIn doc (snippet.take 15)) = true
      · rw [if_pos h3]
        have hocc : occursIn doc (snippet.take 15) = true := by
          simpa using (Bool.and_eq_true _ _ |>.mp h3).2
        obtain ⟨pre, post, hdoc, hrep, -⟩ :=
          replaceFirst_decomp (snippet.take 15) (snippet.take 15 ++ frag) doc hocc
        simp only [h2', Bool.false_or, h3, if_true]
        rw [hrep, hdoc]
        simp only [List.count_append]
        omega
      · rw [if_neg h3]
        simp only [h2', Bool.false_or]
        rw [if_neg h3]
        simp

/-- C1 (amended): the call raises `AnalysisIncomplete` exactly when the
parsed planning response is null or holds zero plans; a non-empty plan list
— even one shorter than the requested `imageCount` — is processed without
error. -/
theorem addIllustrations_error_iff (analysis : Option (List Plan))
    (gen : Plan → Option (List Char)) (articleHtml : List Char) (imageCount : Nat) :
    (addIllustrationsToArticle analysis gen articleHtml imageCount =
        Except.error IllustrationError.analysisIncomplete) ↔
      (analysis = none ∨ analysis = some []) := by
  cases analysis with
  | none => simp [addIllustrationsToArticle]
  | some plans =>
    cases plans with
    | nil => simp [addIllustrationsToArticle]
    | cons p ps => simp [addIllustrationsToArticle]

/-- C1 counterexample: requesting `imageCount = 3` while the planning
response holds only two plans does not raise — the call returns `ok`,
proceeding with the partial plan list (here both image calls fail, so the
document comes back unchanged). -/
theorem addIllustrations_two_plans_no_error :
    addIllustrationsToArticle
      (some [⟨true, [], []⟩, ⟨false, 'x' :: [], []⟩])
      (fun _ => none) "<p>x</p>".toList 3 = Except.ok "<p>x</p>".toList := rfl

/-- C8: a failure of a single plan's image generation is confined to that
plan.  With three plans (cover plus two inline) and exactly the second one
failing, the call returns `ok` on the document obtained by processing the
plans in order, and that document carries exactly two placed figure
fragments — counted through the marker character `插`, which occurs exactly
once in each inserted fragment and nowhere else under the hypotheses. -/
theorem addIllustrations_one_failure
    (articleHtml : List Char) (gen : Plan → Option (List Char)) (p1 p2 p3 : Plan)
    (h1c : p1.isCover = true)
    (d1 : List Char) (hg1 : gen p1 = some d1) (hd1 : d1.count '插' = 0)
    (hg2 : gen p2 = none)
    (d3 : List Char) (hg3 : gen p3 = some d3) (hd3 : d3.count '插' = 0)
    (h3c : p3.isCover = false)
    (h3s : p3.contextSnippet.isEmpty = false)
    (h3a : anchorFound (figTag d1 ++ articleHtml) (trimChars p3.contextSnippet) = true)
    (hhtml : articleHtml.count '插' = 0) :
    addIllustrationsToArticle (some [p1, p2, p3]) gen articleHtml 3 =
      Except.ok (stepDoc gen (stepDoc gen (stepDoc gen articleHtml p1) p2) p3) ∧
    (stepDoc gen (stepDoc gen (stepDoc gen articleHtml p1) p2) p3).count '插' = 2 := by
  have hfigPre : figTagPre.count '插' = 0 := by decide
  have hfigPost : figTagPost.count '插' = 1 := by decide
  have hfig1 : (figTag d1).count '插' = 1 := by
    simp [figTag, List.count_append, hfigPre, hfigPost, hd1]
  have hfig3 : (figTag d3).count '插' = 1 := by
    simp [figTag, List.count_append, hfigPre, hfigPost, hd3]
  have hstep1 : stepDoc gen articleHtml p1 = figTag d1 ++ articleHtml := by
    unfold stepDoc
    rw [hg1]
    simp [h1c]
  have hstep2 : stepDoc gen (stepDoc gen articleHtml p1) p2 = figTag d1 ++ articleHtml := by
    rw [hstep1, stepDoc_none hg2]
  have hstep3 : (stepDoc gen (stepDoc gen (stepDoc gen articleHtml p1) p2) p3).count '插' = 2 := by
    rw [hstep2]
    unfold stepDoc
    rw [hg3]
    simp only [h3c, Bool.false_eq_true, if_false, h3s]
    rw [count_insertInline _ _ _ '插']
    rw [if_pos h3a]
    simp [List.count_append, hfig1, hfig3, hhtml]
  refine ⟨?_, hstep3⟩
  simp [addIllustrationsToArticle, List.foldl]

/-- Concrete scenario for the C8 witness: a short article, a cover plan, an
inline plan whose image call fails, and an inline plan that succeeds. -/
def w8Html : List Char := "<p>Alpha beta.</p>".toList

def w8p1 : Plan := ⟨true, [], []⟩

def w8p2 : Plan := ⟨false, "Beta".toList, []⟩

def w8p3 : Plan := ⟨false, "Alpha".toList, []⟩

def w8gen (p : Plan) : Option (List Char) :=
  if p.isCover then some ['x']
  else if p.contextSnippet == "Alpha".toList then some ['y']
  else none

/-- Witness for C8 at the concrete scenario. -/
theorem addIllustrations_one_failure_witness :
    (w8p1.isCover = true) ∧ (w8gen w8p1 = some ['x']) ∧ (List.count '插' ['x'] = 0) ∧
    (w8gen w8p2 = none) ∧ (w8gen w8p3 = some ['y']) ∧ (List.count '插' ['y'] = 0) ∧
    (w8p3.isCover = false) ∧ (w8p3.contextSnippet.isEmpty = false) ∧
    (anchorFound (figTag ['x'] ++ w8Html) (trimChars w8p3.contextSnippet) = true) ∧
    (w8Html.count '插' = 0) ∧
    (addIllustrationsToArticle (some [w8p1, w8p2, w8p3]) w8gen w8Html 3 =
        Except.ok (stepDoc w8gen (stepDoc w8gen (stepDoc w8gen w8Html w8p1) w8p2) w8p3) ∧
      (stepDoc w8gen (stepDoc w8gen (stepDoc w8gen w8Html w8p1) w8p2) w8p3).count '插' = 2) :=
  ⟨rfl, rfl, by decide, by decide, by decide, by decide, rfl, by decide, by decide, by decide,
    addIllustrations_one_failure w8Html w8gen w8p1 w8p2 w8p3 rfl ['x'] rfl (by decide)
      (by decide) ['y'] (by decide) (by decide) rfl (by decide) (by decide) (by decide)⟩

/-! ## WeChatFormatter: `formatHtmlForWeChat` (src/unnamed/part_001, lines 53-207)

The `DOMParser` front end is given: the formatter's input is the parsed
document body, a forest of element/text nodes.  Styles are modelled as
ordered property/value lists: assigning `style.cssText` replaces the whole
list with the fixed list parsed from the assigned literal, and assigning
`style.boxSizing` updates the property in place or appends it. -/

abbrev Style := List (List Char × List Char)

/-- An element's inline style property assignment
(`element.style.boxSizing = v`): update in place if present, else append. -/
def setProp (st : Style) (k v : List Char) : Style :=
  if st.any (fun q => q.1 == k) then
    st.map (fun q => if q.1 == k then (q.1, v) else q)
  else st ++ [(k, v)]

def styleLookup (st : Style) (k : List Char) : Option (List Char) :=
  match st with
  | [] => none
  | q :: rest => if q.1 == k then some q.2 else styleLookup rest k

/-- Parsed document tree: text nodes and element nodes. -/
inductive HNode where
  | text : List Char → HNode
  | elem : List Char → List (List Char × List Char) → Style → List HNode → HNode

def prop (k v : String) : List Char × List Char := (k.toList, v.toList)

/-- The fixed wrapper style of the top-level `section` container. -/
def wrapperStyle : Style :=
  [prop "font-family" "-apple-system, BlinkMacSystemFont, \x27Helvetica Neue\x27, \x27PingFang SC\x27, \x27Hiragino Sans GB\x27, \x27Microsoft YaHei UI\x27, \x27Microsoft YaHei\x27, Arial, sans-serif",
   prop "font-size" "16px", prop "line-height" "1.75", prop "color" "#333333",
   prop "letter-spacing" "0.034em", prop "text-align" "justify",
   prop "word-break" "break-all", prop "box-sizing" "border-box",
   prop "margin" "0", prop "padding" "10px"]

def h2Style : Style :=
  [prop "font-size" "17px", prop "font-weight" "bold", prop "margin-top" "40px",
   prop "margin-bottom" "24px", prop "color" "#333333",
   prop "text-align" "center !important", prop "line-height" "1.4",
   prop "box-sizing" "border-box", prop "display" "block", prop "width" "100%",
   prop "margin-left" "auto", prop "margin-right" "auto"]

def h3Style : Style :=
  [prop "font-size" "17px", prop "font-weight" "bold", prop "margin-top" "30px",
   prop "margin-bottom" "20px", prop "color" "#333333",
   prop "text-align" "center !important", prop "line-height" "1.4",
   prop "box-sizing" "border-box", prop "display" "block", prop "width" "100%",
   prop "margin-left" "auto", prop "margin-right" "auto"]

def pStyle : Style :=
  [prop "margin" "0 0 24px 0", prop "font-size" "16px", prop "line-height" "1.8",
   prop "color" "#333333", prop "text-align" "justify", prop "box-sizing" "border-box"]

def imgStyle : Style :=
  [prop "display" "block", prop "margin" "0 auto", prop "max-width" "100% !important",
   prop "height" "auto !important", prop "border-radius" "6px",
   prop "box-sizing" "border-box", prop "box-shadow" "0 4px 12px rgba(0,0,0,0.08)",
   prop "visibility" "visible !important", prop "opacity" "1 !important"]

def strongStyle : Style := [prop "font-weight" "700", prop "color" "#333333"]

def emStyle : Style :=
  [prop "font-style" "italic", prop "color" "#ff5f00", prop "font-weight" "bold",
   prop "padding" "0 2px"]

def uStyle : Style :=
  [prop "text-decoration" "underline", prop "text-decoration-color" "#ff5f00",
   prop "text-decoration-thickness" "1.5px", prop "text-underline-offset" "4px"]

def listStyle : Style := [prop "margin" "0 0 20px 20px", prop "padding" "0"]

def liStyle : Style := [prop "margin-bottom" "8px"]

/-- The style assigned to a `figure` parent of an `img` element. -/
def figureStyle : Style :=
  [prop "margin" "20px 0", prop "padding" "0", prop "text-align" "center",
   prop "display" "block", prop "width" "100%", prop "box-sizing" "border-box"]

/-- `processNode` on an element that is not a figure-with-image parent: the
box-sizing reset is set first; a tag with a specific rule then has its whole
`cssText` replaced by that rule's fixed list. -/
def processedStyle (tag : List Char) (st : Style) : Style :=
  let st1 := setProp st "box-sizing".toList "border-box".toList
  if tag == "h2".toList then h2Style
  else if tag == "h3".toList then h3Style
  else if tag == "p".toList then pStyle
  else if tag == "img".toList then imgStyle
  else if tag == "strong".toList || tag == "b".toList then strongStyle
  else if tag == "em".toList then emStyle
  else if tag == "u".toList then uStyle
  else if tag == "ul".toList || tag == "ol".toList then listStyle
  else if tag == "li".toList then liStyle
  else st1

def isImgElem : HNode → Bool
  | .elem t _ _ _ => t == "img".toList
  | _ => false

/-- The final style of an element after the walk: a `figure` holding an
`img` child has its style replaced by the figure rule when that child is
processed; every other element keeps `processedStyle`. -/
def walkStyle (tag : List Char) (st : Style) (figOverride : Bool) : Style :=
  if tag == "figure".toList && figOverride then figureStyle
  else processedStyle tag st

/-- `element.removeAttribute`. -/
def removeAttr (attrs : List (List Char × List Char)) (k : List Char) :
    List (List Char × List Char) :=
  attrs.filter (fun q => !(q.1 == k))

mutual
/-- The recursive walk of `formatHtmlForWeChat`: `processNode` on the node
(style rewrite; `img` elements also lose their width/height attributes and
restyle a `figure` parent), then recursion into the children. -/
def walkNode : HNode → HNode
  | .text s => .text s
  | .elem tag attrs st children =>
    .elem tag
      (if tag == "img".toList then
        removeAttr (removeAttr attrs "width".toList) "height".toList
       else attrs)
      (walkStyle tag st (children.any isImgElem))
      (walkList children)
def walkList : List HNode → List HNode
  | [] => []
  | c :: cs => walkNode c :: walkList cs
end

def wrapperAttrs : List (List Char × List Char) := [prop "data-tool" "AIWriter"]

/-- The tree stage of `formatHtmlForWeChat`: move the parsed body into a
fresh `section` wrapper carrying the fixed base style and the
`data-tool="AIWriter"` marker, then walk the wrapper. -/
def formatTree (body : List HNode) : HNode :=
  walkNode (.elem "section".toList wrapperAttrs wrapperStyle body)

def serializeProps : Style → List Char
  | [] => []
  | (k, v) :: rest => k ++ ": ".toList ++ v ++ "; ".toList ++ serializeProps rest

def serializeAttrs : List (List Char × List Char) → List Char
  | [] => []
  | (k, v) :: rest => " ".toList ++ k ++ "=\x22".toList ++ v ++ "\x22".toList ++ serializeAttrs rest

mutual
/-- `doc.body.innerHTML`: serialisation of the walked tree. -/
def serializeNode : HNode → List Char
  | .text s => s
  | .elem tag attrs st children =>
    "<".toList ++ tag ++ serializeAttrs attrs ++ " style=\x22".toList ++ serializeProps st ++
      "\x22>".toList ++ serializeList children ++ "</".toList ++ tag ++ ">".toList
def serializeList : List HNode → List Char
  | [] => []
  | c :: cs => serializeNode c ++ serializeList cs
end

/-- JavaScript `String.prototype.replace` with a global regex on a literal
pattern: replace every occurrence left to right, never rescanning the
replacement text.  (Guarded against the empty pattern, which never arises:
the two patterns used are `<figure` and `</figure>`.) -/
def replaceAll (pat rep : List Char) : List Char → List Char
  | [] => []
  | c :: rest =>
    if 0 < pat.length && leadsWith pat (c :: rest) then
      rep ++ replaceAll pat rep ((c :: rest).drop pat.length)
    else c :: replaceAll pat rep rest
termination_by l => l.length
decreasing_by
  · rename_i h
    simp only [Bool.and_eq_true, decide_eq_true_eq] at h
    simp only [List.length_drop, List.length_cons]
    omega
  · simp

/-- The final text pass of `formatHtmlForWeChat`: swap every `<figure` for
`<p` and every `</figure>` for `</p>`. -/
def figureSwap (doc : List Char) : List Char :=
  replaceAll "</figure>".toList "</p>".toList (replaceAll "<figure".toList "<p".toList doc)

/-- `formatHtmlForWeChat` from src/unnamed/part_001: wrap, walk, serialise,
swap figure tags. -/
def formatHtmlForWeChat (body : List HNode) : List Char :=
  figureSwap (serializeNode (formatTree body))

mutual
/-- All element nodes of a tree, as (tag, style) pairs. -/
def allElems : HNode → List (List Char × Style)
  | .text _ => []
  | .elem tag _ st children => (tag, st) :: allElemsList children
def allElemsList : List HNode → List (List Char × Style)
  | [] => []
  | c :: cs => allElems c ++ allElemsList cs
end

def hasBoxSizing (st : Style) : Bool :=
  styleLookup st "box-sizing".toList == some "border-box".toList

/-- The claim-C2 predicate: every element of the tree carries the
box-sizing reset. -/
def allElemsBoxSized (n : HNode) : Bool :=
  (allElems n).all (fun ts => hasBoxSizing ts.2)

/-- The tags whose fixed tag-specific rule omits `box-sizing`. -/
def noResetTags : List (List Char) :=
  ["strong".toList, "b".toList, "em".toList, "u".toList, "ul".toList, "ol".toList,
   "li".toList]

theorem styleLookup_map_set (k v : List Char) :
    ∀ st : Style, st.any (fun q => q.1 == k) = true →
      styleLookup (st.map (fun q => if q.1 == k then (q.1, v) else q)) k = some v := by
  intro st
  induction st with
  | nil => intro h; simp at h
  | cons q rest ih =>
    intro h
    by_cases hq : (q.1 == k) = true
    · simp only [List.map_cons, hq, if_true, styleLookup, if_pos hq]
    · simp only [List.map_cons, hq, Bool.false_eq_true, if_false, styleLookup, if_neg hq]
      apply ih
      simp only [List.any_cons, hq, Bool.false_or] at h
      exact h

theorem styleLookup_append_new (k v : List Char) :
    ∀ st : Style, st.any (fun q => q.1 == k) = false →
      styleLookup (st ++ [(k, v)]) k = some v := by
  intro st
  induction st with
  | nil => simp [styleLookup]
  | cons q rest ih =>
    intro h
    have hq : (q.1 == k) = false := by
      by_contra hc
      simp only [List.any_cons, Bool.or_eq_true] at h
      rw [Bool.not_eq_false] at hc
      simp [hc] at h
    have hrest : rest.any (fun q => q.1 == k) = false := by
      by_contra hc
      rw [Bool.not_eq_false] at hc
      simp [List.any_cons, hc] at h
    simp only [List.cons_append, styleLookup]
    rw [if_neg (by simp [hq])]
    exact ih hrest

theorem styleLookup_setProp (k v : List Char) (st : Style) :
    styleLookup (setProp st k v) k = some v := by
  unfold setProp
  by_cases h : st.any (fun q => q.1 == k) = true
  · rw [if_pos h]
    exact styleLookup_map_set k v st h
  · rw [if_neg h]
    have hf : st.any (fun q => q.1 == k) = false := by
      cases hb : st.any (fun q => q.1 == k) with
      | true => exact absurd hb h
      | false => rfl
    exact styleLookup_append_new k v st hf

/-- Per-element box-sizing outcome of the walk: present unless the tag's
fixed rule replaced the whole style without it. -/
theorem walkStyle_boxSizing (tag : List Char) (st : Style) (fig : Bool) :
    (tag ∉ noResetTags →
      styleLookup (walkStyle tag st fig) "box-sizing".toList = some "border-box".toList) ∧
    (tag ∈ noResetTags →
      styleLookup (walkStyle tag st fig) "box-sizing".toList = none) := by
  unfold walkStyle
  by_cases hf : (tag == "figure".toList && fig) = true
  · have htag : tag = "figure".toList := eq_of_beq ((Bool.and_eq_true _ _).mp hf).1
    rw [if_pos hf]
    subst htag
    exact ⟨fun _ => by decide, fun h => absurd h (by decide)⟩
  · rw [if_neg hf]
    unfold processedStyle
    by_cases h1 : (tag == "h2".toList) = true
    · rw [if_pos h1]
      have := eq_of_beq h1; subst this
      exact ⟨fun _ => by decide, fun h => absurd h (by decide)⟩
    · rw [if_neg h1]
      by_cases h2 : (tag == "h3".toList) = true
      · rw [if_pos h2]
        have := eq_of_beq h2; subst this
        exact ⟨fun _ => by decide, fun h => absurd h (by decide)⟩
      · rw [if_neg h2]
        by_cases h3 : (tag == "p".toList) = true
        · rw [if_pos h3]
          have := eq_of_beq h3; subst this
          exact ⟨fun _ => by decide, fun h => absurd h (by decide)⟩
        · rw [if_neg h3]
          by_cases h4 : (tag == "img".toList) = true
          · rw [if_pos h4]
            have := eq_of_beq h4; subst this
            exact ⟨fun _ => by decide, fun h => absurd h (by decide)⟩
          · rw [if_neg h4]
            by_cases h5 : (tag == "strong".toList || tag == "b".toList) = true
            · rw [if_pos h5]
              rcases Bool.or_eq_true _ _ |>.mp h5 with h | h
              · have := eq_of_beq h; subst this
                exact ⟨fun hn => absurd (by decide) hn, fun _ => by decide⟩
              · have := eq_of_beq h; subst this
                exact ⟨fun hn => absurd (by decide) hn, fun _ => by decide⟩
            · rw [if_neg h5]
              by_cases h6 : (tag == "em".toList) = true
              · rw [if_pos h6]
                have := eq_of_beq h6; subst this
                exact ⟨fun hn => absurd (by decide) hn, fun _ => by decide⟩
              · rw [if_neg h6]
                by_cases h7 : (tag == "u".toList) = true
                · rw [if_pos h7]
                  have := eq_of_beq h7; subst this
                  exact ⟨fun hn => absurd (by decide) hn, fun _ => by decide⟩
                · rw [if_neg h7]
                  by_cases h8 : (tag == "ul".toList || tag == "ol".toList) = true
                  · rw [if_pos h8]
                    rcases Bool.or_eq_true _ _ |>.mp h8 with h | h
                    · have := eq_of_beq h; subst this
                      exact ⟨fun hn => absurd (by decide) hn, fun _ => by decide⟩
                    · have := eq_of_beq h; subst this
                      exact ⟨fun hn => absurd (by decide) hn, fun _ => by decide⟩
                  · rw [if_neg h8]
                    by_cases h9 : (tag == "li".toList) = true
                    · rw [if_pos h9]
                      have := eq_of_beq h9; subst this
                      exact ⟨fun hn => absurd (by decide) hn, fun _ => by decide⟩
                    · rw [if_neg h9]
                      refine ⟨fun _ => styleLookup_setProp _ _ st, fun hmem => ?_⟩
                      exfalso
                      simp only [noResetTags, List.mem_cons,
                        List.not_mem_nil, or_false] at hmem
                      rcases hmem with h | h | h | h | h | h | h
                      · subst h; simp at h5
                      · subst h; simp at h5
                      · subst h; simp at h6
                      · subst h; simp at h7
                      · subst h; simp at h8
                      · subst h; simp at h8
                      · subst h; simp at h9

mutual
theorem walkNode_boxSizing (n : HNode) :
    ∀ ts ∈ allElems (walkNode n),
      (ts.1 ∉ noResetTags →
        styleLookup ts.2 "box-sizing".toList = some "border-box".toList) ∧
      (ts.1 ∈ noResetTags → styleLookup ts.2 "box-sizing".toList = none) := by
  cases n with
  | text s =>
    intro ts hts
    simp [walkNode, allElems] at hts
  | elem tag attrs st children =>
    intro ts hts
    simp only [walkNode, allElems, List.mem_cons] at hts
    rcases hts with h | h
    · subst h
      exact walkStyle_boxSizing tag st (children.any isImgElem)
    · exact walkList_boxSizing children ts h
theorem walkList_boxSizing (l : List HNode) :
    ∀ ts ∈ allElemsList (walkList l),
      (ts.1 ∉ noResetTags →
        styleLookup ts.2 "box-sizing".toList = some "border-box".toList) ∧
      (ts.1 ∈ noResetTags → styleLookup ts.2 "box-sizing".toList = none) := by
  cases l with
  | nil => intro ts hts; simp [walkList, allElemsList] at hts
  | cons c cs =>
    intro ts hts
    simp only [walkList, allElemsList, List.mem_append] at hts
    rcases hts with h | h
    · exact walkNode_boxSizing c ts h
    · exact walkList_boxSizing cs ts h
end

/-- C2 counterexample: a document holding a single `strong` element comes
out of the tree walk with an element that does not carry the box-sizing
reset — the tag-specific `cssText` assignment replaced the whole style,
reset included. -/
theorem formatTree_boxSizing_cex :
    allElemsBoxSized
      (formatTree [HNode.elem "strong".toList [] [] [HNode.text "hi".toList]]) = false := by
  decide

/-- C2 (amended): after `formatHtmlForWeChat`'s tree walk, every element
carries the box-sizing reset except those styled as
strong/b/em/u/ul/ol/li, whose fixed tag rule replaces the whole style
(including the previously set reset) and omits box-sizing. -/
theorem formatTree_boxSizing (body : List HNode) :
    ∀ ts ∈ allElems (formatTree body),
      (ts.1 ∉ noResetTags →
        styleLookup ts.2 "box-sizing".toList = some "border-box".toList) ∧
      (ts.1 ∈ noResetTags → styleLookup ts.2 "box-sizing".toList = none) :=
  fun ts hts => walkNode_boxSizing _ ts hts

/-- Witness for C2 (amended) at a concrete paragraph element. -/
theorem formatTree_boxSizing_witness :
    (("p".toList, pStyle) ∈ allElems (formatTree [HNode.elem "p".toList [] [] []])) ∧
    ("p".toList ∉ noResetTags) ∧
    styleLookup pStyle "box-sizing".toList = some "border-box".toList :=
  ⟨by decide, by decide,
    (formatTree_boxSizing [HNode.elem "p".toList [] [] []] ("p".toList, pStyle)
      (by decide)).1 (by decide)⟩

/-- C10: the formatter always wraps its input in one fresh top-level
`section` carrying the fixed base style and the `data-tool="AIWriter"`
marker; feeding formatted output back in nests the previous wrapper (still
bearing its marker) inside a new one, so the container-wrapping step is not
idempotent.  The string output is exactly the serialisation of this wrapped
tree followed by the figure-to-paragraph text swap. -/
theorem formatTree_wraps (body : List HNode) :
    (formatTree body =
      HNode.elem "section".toList wrapperAttrs
        (walkStyle "section".toList wrapperStyle (body.any isImgElem)) (walkList body)) ∧
    (formatTree [formatTree body] =
      HNode.elem "section".toList wrapperAttrs
        (walkStyle "section".toList wrapperStyle false)
        [HNode.elem "section".toList wrapperAttrs
          (walkStyle "section".toList
            (walkStyle "section".toList wrapperStyle (body.any isImgElem))
            ((walkList body).any isImgElem))
          (walkList (walkList body))]) ∧
    formatHtmlForWeChat body = figureSwap (serializeNode (formatTree body)) := by
  refine ⟨rfl, ?_, rfl⟩
  rfl

end Weixin
